import Mathlib

/-!
# FastoNoSQL embedded-backend layer: a verification development

Shallow embedding of the two embedded storage backends of the repository
(`src/core/db/lmdb/db_connection.cpp` and
`src/core/db/upscaledb/db_connection.cpp`) together with the connection
settings parser (`src/core/connection_settings_factory.cpp`).

The native table is modelled as the list of its keys in the backend's
native iteration order; a cursor walk is a walk down that list.  The
external `common` library functions (`MatchPattern`, `ConvertFromString`)
and native library calls (`mdb_dbi_open`, `ups_env_open_db`, ...) are not
part of the repository: pattern matching is modelled from the spec's
glossary, the rest are abstract parameters of the embedded functions.
-/

set_option maxHeartbeats 1000000

/-- Modelled from the spec: `common::MatchPattern` (external `common`
library).  Shell-glob matching over the pattern (first list) and the text
(second list): `*` matches any run of characters, `?` any single
character, a literal character matches exactly. -/
def globMatch : List Char → List Char → Bool
  | [], ts => ts.isEmpty
  | '?' :: ps, ts =>
    match ts with
    | [] => false
    | _ :: ts' => globMatch ps ts'
  | '*' :: ps, ts => ts.tails.any (fun suf => globMatch ps suf)
  | p :: ps, ts =>
    match ts with
    | [] => false
    | t :: ts' => (p = t) && globMatch ps ts'

/-- `common::MatchPattern(skey, pattern)` as used by both `ScanImpl`
implementations: the key text is the first argument, the glob pattern the
second. -/
def MatchPattern (text pattern : String) : Bool :=
  globMatch pattern.data text.data

/-- The matching keys of a table, in native order: the subsequence of keys
that pass `common::MatchPattern` for the given pattern. -/
def matchesOf (pattern : String) (table : List String) : List String :=
  table.filter (fun k => MatchPattern k pattern)

/-- The reference skip-count protocol of spec §4.3, one step worded from
the spec: walk the keys in native order; a skip counter starts at
`cursorIn`; every matching key is skipped while the counter is positive
(decrementing it) and collected once it is zero, until `pageSize` matches
have been collected; as soon as `pageSize` matches are collected the walk
stops early with `cursorOut = cursorIn + pageSize`; if the iteration
exhausts before collecting `pageSize` matches, `cursorOut = 0` and the
matches actually found are returned. -/
def scanProtocolLoop (cursorIn pageSize : Nat) (pattern : String) :
    List String → Nat → List String → List String × Nat
  | [], _, acc => if acc.length = pageSize then (acc, cursorIn + pageSize) else (acc, 0)
  | k :: rest, skip, acc =>
    if acc.length = pageSize then (acc, cursorIn + pageSize)
    else if MatchPattern k pattern then
      if skip = 0 then scanProtocolLoop cursorIn pageSize pattern rest skip (acc ++ [k])
      else scanProtocolLoop cursorIn pageSize pattern rest (skip - 1) acc
    else scanProtocolLoop cursorIn pageSize pattern rest skip acc

/-- The reference skip-count protocol: full walk from the start of the
table with the skip counter initialized to `cursorIn`. -/
def scanProtocol (cursorIn : Nat) (pattern : String) (pageSize : Nat)
    (table : List String) : List String × Nat :=
  scanProtocolLoop cursorIn pageSize pattern table cursorIn []

/-- Loop of `upscaledb::DBConnection::ScanImpl`
(`src/core/db/upscaledb/db_connection.cpp:411`): at each iteration the
page-fullness test `lkeys_out.size() < count_keys` runs *before* the
cursor move; a full page sets `lcursor_out = cursor_in + count_keys` and
breaks, a failed move (`UPS_KEY_NOT_FOUND`) leaves `lcursor_out = 0`. -/
def upscaledbScanLoop (cursor_in count_keys : Nat) (pattern : String) :
    List String → Nat → List String → List String × Nat
  | [], _, acc =>
    if acc.length < count_keys then (acc, 0) else (acc, cursor_in + count_keys)
  | k :: rest, offset_pos, acc =>
    if acc.length < count_keys then
      if MatchPattern k pattern then
        if offset_pos = 0 then
          upscaledbScanLoop cursor_in count_keys pattern rest offset_pos (acc ++ [k])
        else upscaledbScanLoop cursor_in count_keys pattern rest (offset_pos - 1) acc
      else upscaledbScanLoop cursor_in count_keys pattern rest offset_pos acc
    else (acc, cursor_in + count_keys)

/-- `upscaledb::DBConnection::ScanImpl` on a fixed table. -/
def upscaledbScanImpl (cursor_in : Nat) (pattern : String) (count_keys : Nat)
    (table : List String) : List String × Nat :=
  upscaledbScanLoop cursor_in count_keys pattern table cursor_in []

/-- Loop of `lmdb::DBConnection::ScanImpl`
(`src/core/db/lmdb/db_connection.cpp:391`): the cursor move
`mdb_cursor_get(..., MDB_NEXT)` is the `while` condition, so it runs
*before* the page-fullness test; a failed move exits the loop with
`lcursor_out = 0` even when the page is already full. -/
def lmdbScanLoop (cursor_in count_keys : Nat) (pattern : String) :
    List String → Nat → List String → List String × Nat
  | [], _, acc => (acc, 0)
  | k :: rest, offset_pos, acc =>
    if acc.length < count_keys then
      if MatchPattern k pattern then
        if offset_pos = 0 then
          lmdbScanLoop cursor_in count_keys pattern rest offset_pos (acc ++ [k])
        else lmdbScanLoop cursor_in count_keys pattern rest (offset_pos - 1) acc
      else lmdbScanLoop cursor_in count_keys pattern rest offset_pos acc
    else (acc, cursor_in + count_keys)

/-- `lmdb::DBConnection::ScanImpl` on a fixed table. -/
def lmdbScanImpl (cursor_in : Nat) (pattern : String) (count_keys : Nat)
    (table : List String) : List String × Nat :=
  lmdbScanLoop cursor_in count_keys pattern table cursor_in []

/-- A chained pagination run (spec §8, "Scan pagination"): starting from a
cursor, call `scanF`, feed each call's `cursorOut` as the next `cursorIn`,
and stop when a call returns `cursorOut = 0`.  Returns the pages in
order and the last `cursorOut` observed (`0` exactly when the run ended
because a call returned the end-of-results cursor, rather than because
the fuel ran out). -/
def paginateRun (scanF : Nat → List String × Nat) : Nat → Nat → List (List String) × Nat
  | 0, c => ([], c)
  | fuel + 1, c =>
    let r := scanF c
    if r.2 = 0 then ([r.1], 0)
    else
      let next := paginateRun scanF fuel r.2
      (r.1 :: next.1, next.2)

/-- Loop of `lmdb::DBConnection::KeysImpl`
(`src/core/db/lmdb/db_connection.cpp:437`): the `while` condition moves
the cursor first and then checks `limit > ret->size()`; the body pushes a
visited key when `key_start < skey && key_end > skey`. -/
def lmdbKeysLoop (key_start key_end : String) (limit : Nat) :
    List String → List String → List String
  | [], ret => ret
  | k :: rest, ret =>
    if limit > ret.length then
      lmdbKeysLoop key_start key_end limit rest
        (if key_start.data < k.data ∧ key_end.data > k.data then ret ++ [k] else ret)
    else ret

/-- `lmdb::DBConnection::KeysImpl` on a fixed table. -/
def lmdbKeysImpl (key_start key_end : String) (limit : Nat) (table : List String) :
    List String :=
  lmdbKeysLoop key_start key_end limit table []

/-- Loop of `upscaledb::DBConnection::KeysImpl`
(`src/core/db/upscaledb/db_connection.cpp:464`): a `do`/`while` — the body
moves the cursor and pushes an in-range key *before* the
`limit > ret->size()` test runs, so the first key is processed
unconditionally. -/
def upscaledbKeysLoop (key_start key_end : String) (limit : Nat) :
    List String → List String → List String
  | [], ret => ret
  | k :: rest, ret =>
    let ret' := if key_start.data < k.data ∧ key_end.data > k.data then ret ++ [k] else ret
    if limit > ret'.length then upscaledbKeysLoop key_start key_end limit rest ret'
    else ret'

/-- `upscaledb::DBConnection::KeysImpl` on a fixed table. -/
def upscaledbKeysImpl (key_start key_end : String) (limit : Nat) (table : List String) :
    List String :=
  upscaledbKeysLoop key_start key_end limit table []

/-- A key/value table: association list of bindings in native order. -/
abbrev KV := List (String × String)

/-- The uniform error domain relevant to these operations (spec §7). -/
inductive DbErr
  | notFound
  | invalidArgument
  | backendFail
deriving DecidableEq

/-- Modelled from the spec: the native point lookup behind `GetInner`
(`mdb_get` / `ups_db_find`, external libraries) — byte-for-byte key match,
returns the bound value when present. -/
def kvFind : KV → String → Option String
  | [], _ => none
  | p :: rest, k => if p.1 = k then some p.2 else kvFind rest k

/-- Modelled from the spec: the native delete behind `DelInner`
(`mdb_del` / `ups_db_erase`, external libraries) — removes the binding of
a byte-exact key. -/
def kvErase : KV → String → KV
  | [], _ => []
  | p :: rest, k => if p.1 = k then kvErase rest k else p :: kvErase rest k

/-- `DBConnection::GetInner`: native find; a missing key surfaces the
native not-found status as an error. -/
def GetInner (st : KV) (k : String) : Except DbErr String :=
  match kvFind st k with
  | some v => .ok v
  | none => .error .notFound

/-- `DBConnection::DelInner`: native delete; deleting an absent key
surfaces the native not-found status as an error. -/
def DelInner (st : KV) (k : String) : Except DbErr KV :=
  match kvFind st k with
  | some _ => .ok (kvErase st k)
  | none => .error .notFound

/-- `DBConnection::SetInner`: native put with overwrite
(`mdb_put` / `ups_db_insert(..., UPS_OVERWRITE)`); always succeeds. -/
def SetInner (st : KV) (k v : String) : KV :=
  (k, v) :: kvErase st k

/-- Loop of `DBConnection::DeleteImpl` (identical in both backends): walk
the requested keys, `DelInner` each; a per-key error is skipped with
`continue`, a success appends the key to `deleted_keys`. -/
def deleteLoop : List String → KV → List String × KV
  | [], st => ([], st)
  | k :: rest, st =>
    match DelInner st k with
    | .error _ => deleteLoop rest st
    | .ok st' =>
      let r := deleteLoop rest st'
      (k :: r.1, r.2)

/-- `DBConnection::DeleteImpl`: the loop above, then unconditionally
`return common::Error();` — the multi-key delete always reports success. -/
def DeleteImpl (keys : List String) (st : KV) : Except DbErr (List String × KV) :=
  .ok (deleteLoop keys st)

/-- `DBConnection::RenameImpl` (identical in both backends): get the old
value, delete the old key, set the new key; any failing step aborts and
leaves the table as that step left it. -/
def RenameImpl (st : KV) (key : String) (new_key : String) : Except DbErr KV := do
  let value_str ← GetInner st key
  let st' ← DelInner st key
  pure (SetInner st' new_key value_str)

/-- Result of a `FlushDBImpl` call: whether it reported success, the table
contents afterwards, and whether a native transaction was committed. -/
structure FlushOutcome where
  ok : Bool
  finalTable : List String
  committed : Bool
deriving DecidableEq

/-- Walk of `lmdb::DBConnection::FlushDBImpl`
(`src/core/db/lmdb/db_connection.cpp:495`): `mdb_del` every visited key
inside the write transaction, counting them (`sz`); the first failing
delete aborts the walk (`none`).  `delFails` models which native deletes
fail. -/
def lmdbFlushLoop (delFails : String → Bool) : List String → Nat → Option Nat
  | [], sz => some sz
  | k :: rest, sz =>
    if delFails k then none else lmdbFlushLoop delFails rest (sz + 1)

/-- `lmdb::DBConnection::FlushDBImpl`: one write transaction around the
walk; a per-key failure aborts it (the table is unchanged and an error is
returned), success commits when at least one key was deleted
(`sz != 0`) and aborts the empty transaction otherwise. -/
def lmdbFlushDBImpl (delFails : String → Bool) (table : List String) : FlushOutcome :=
  match lmdbFlushLoop delFails table 0 with
  | none => ⟨false, table, false⟩
  | some sz => if sz ≠ 0 then ⟨true, [], true⟩ else ⟨true, table, false⟩

/-- Walk of `upscaledb::DBConnection::FlushDBImpl`
(`src/core/db/upscaledb/db_connection.cpp:512`): `ups_db_erase` with no
transaction, its return status discarded — a failing erase leaves its key
in place and the walk continues. -/
def upscaledbFlushLoop (delFails : String → Bool) :
    List String → List String → List String
  | [], kept => kept
  | k :: rest, kept =>
    upscaledbFlushLoop delFails rest (if delFails k then kept ++ [k] else kept)

/-- `upscaledb::DBConnection::FlushDBImpl`: no transaction is opened, the
walk always reports success, and keys whose erase failed survive it. -/
def upscaledbFlushDBImpl (delFails : String → Bool) (table : List String) :
    FlushOutcome :=
  ⟨true, upscaledbFlushLoop delFails table [], false⟩

/-- The lmdb native handle (`struct lmdb`): the open dbi and the recorded
name of the open table (null when unnamed). -/
structure LmdbHandle where
  db_name : Option String
  dbir : Nat
deriving DecidableEq

/-- The upscaledb native handle (`struct upscaledb`): the open db handle
and the current table number. -/
structure UpscaledbHandle where
  cur_db : Nat
  db : Nat
deriving DecidableEq

/-- `DataBaseInfo(name, is_default, kcount)` as produced by both
`SelectImpl` implementations. -/
structure DataBaseInfo where
  name : String
  isDefault : Bool
  kcount : Nat
deriving DecidableEq

/-- `lmdb_select` (`src/core/db/lmdb/db_connection.cpp:72`): lazy select
when the requested name is already the recorded open name; otherwise open
the dbi inside one native transaction (`openDbi` models
`mdb_txn_begin` + `mdb_dbi_open`, external library), abort and leave the
handle untouched on failure, and swap the handle only after the commit. -/
def lmdb_select (openDbi : String → Option Nat) (ctx : LmdbHandle) (name : String) :
    LmdbHandle × Option DbErr :=
  if ctx.db_name = some name then (ctx, none)
  else
    match openDbi name with
    | none => (ctx, some .backendFail)
    | some ldbi => (⟨some name, ldbi⟩, none)

/-- `upscaledb_select` (`src/core/db/upscaledb/db_connection.cpp:171`):
lazy select when the requested table number is already current; otherwise
`ups_env_open_db` (the `openDb` parameter, external library), keeping the
handle untouched on failure. -/
def upscaledb_select (openDb : Nat → Option Nat) (ctx : UpscaledbHandle) (num : Nat) :
    UpscaledbHandle × Option DbErr :=
  if ctx.cur_db = num then (ctx, none)
  else
    match openDb num with
    | none => (ctx, some .backendFail)
    | some db => (⟨num, db⟩, none)

/-- `lmdb::DBConnection::SelectImpl`
(`src/core/db/lmdb/db_connection.cpp:534`): run `lmdb_select`, then
recompute the key count of the now-current table (`DBkcount`, modelled by
`counts`) and return a fresh `DataBaseInfo`. -/
def lmdbSelectImpl (openDbi : String → Option Nat) (counts : String → Nat)
    (ctx : LmdbHandle) (name : String) : LmdbHandle × Except DbErr DataBaseInfo :=
  let r := lmdb_select openDbi ctx name
  match r.2 with
  | some e => (r.1, .error e)
  | none => (r.1, .ok ⟨name, true, counts name⟩)

/-- `upscaledb::DBConnection::SelectImpl`
(`src/core/db/upscaledb/db_connection.cpp:544`): parse the table name as a
16-bit number via `common::ConvertFromString` (abstract parameter `conv`,
external library); a failed parse returns `make_error_inval()` before the
handle is touched; otherwise select and return a fresh key count of the
current table. -/
def upscaledbSelectImpl (conv : String → Option Nat) (openDb : Nat → Option Nat)
    (counts : Nat → Nat) (ctx : UpscaledbHandle) (name : String) :
    UpscaledbHandle × Except DbErr DataBaseInfo :=
  match conv name with
  | none => (ctx, .error .invalidArgument)
  | some num =>
    let r := upscaledb_select openDb ctx num
    match r.2 with
    | some _ => (r.1, .error .backendFail)
    | none => (r.1, .ok ⟨name, true, counts r.1.cur_db⟩)

/-- Observable result of `upscaledb::DBConnection::Disconnect`. -/
inductive DisconnectOutcome
  | ok (handle : Option UpscaledbHandle)
  | nullDeref
deriving DecidableEq

/-- `upscaledb_close` (`src/core/db/upscaledb/db_connection.cpp:222`):
returns immediately when the handle pointer or the handle is already
null; otherwise closes db and environment, frees, and nulls the handle —
safe on an already-closed handle. -/
def upscaledb_close : Option UpscaledbHandle → Option UpscaledbHandle
  | none => none
  | some _ => none

/-- Modelled from the spec: the generic base-class `Disconnect` (not under
`src/`): invokes the allocator-level `Disconnect` (which calls
`upscaledb_close`) and resets selected-table state. -/
def baseDisconnect (handle : Option UpscaledbHandle) : Option UpscaledbHandle :=
  upscaledb_close handle

/-- `upscaledb::DBConnection::Disconnect`
(`src/core/db/upscaledb/db_connection.cpp:351`): executes
`connection_.handle_->cur_db = 0;` before delegating to the base class;
with no handle present this dereferences a null pointer. -/
def upscaledbDisconnect : Option UpscaledbHandle → DisconnectOutcome
  | none => .nullDeref
  | some ctx => .ok (baseDisconnect (some { ctx with cur_db := 0 }))

/-- The settings record built by `CreateFromString` through the setter
calls on `IConnectionSettingsBase`.  `msTimeText` is the raw text handed
to `common::ConvertFromString<uint32_t>` (external library). -/
structure ConnSettings where
  typ : Int
  path : String
  msTimeText : String
  commandLine : String
  sshInfo : String
deriving DecidableEq

/-- Character loop of `ConnectionSettingsFactory::CreateFromString`
(`src/core/connection_settings_factory.cpp:105`): commas are counted; at
the first comma the backend type is `elText[0] - 48` (an empty `elText`
reads the terminating null character) and `CreateFromType` accepts it or
fails (modelled by `validType`); at the second the accumulated text
becomes the connection path; at the third the accumulated text becomes
the logging-interval text and, for a non-remote type (`isRemote` models
`IsRemoteType`, outside `src/`), `val.substr(i + 1)` — the whole
remainder — becomes the command line and the loop breaks; at a fourth
comma (remote types) the accumulated text becomes the command line and
the remainder the SSH info blob.  In the C++ code `result` is always
non-null once a comma has been consumed; the unreachable null cases are
modelled by `Option` propagation. -/
def cfsLoop (validType isRemote : Int → Bool) :
    List Char → Nat → List Char → Option ConnSettings → Option ConnSettings
  | [], _, _, result => result
  | ch :: rest, commaCount, elText, result =>
    if ch = ',' then
      if commaCount = 0 then
        let crT : Int := (elText.headD (Char.ofNat 0)).toNat - 48
        if validType crT then
          cfsLoop validType isRemote rest 1 [] (some ⟨crT, "", "", "", ""⟩)
        else none
      else if commaCount = 1 then
        cfsLoop validType isRemote rest 2 []
          (result.map (fun r => { r with path := String.mk elText }))
      else if commaCount = 2 then
        result.bind (fun r =>
          let r' := { r with msTimeText := String.mk elText }
          if isRemote r'.typ then cfsLoop validType isRemote rest 3 [] (some r')
          else some { r' with commandLine := String.mk rest })
      else
        result.map (fun r =>
          { r with commandLine := String.mk elText, sshInfo := String.mk rest })
    else cfsLoop validType isRemote rest commaCount (elText ++ [ch]) result

/-- `ConnectionSettingsFactory::CreateFromString`: an empty input is
rejected, otherwise the character loop runs over the whole string. -/
def CreateFromString (validType isRemote : Int → Bool) (val : String) :
    Option ConnSettings :=
  if val = "" then none
  else cfsLoop validType isRemote val.data 0 [] none

/-- The `KeysInRange` reference from the spec (§4.3): walk the native
iteration once, collecting every key strictly greater than `key_start`
and strictly less than `key_end`, stopping once `limit` results are
collected or the iteration ends. -/
def keysInRangeProtocol (key_start key_end : String) (limit : Nat)
    (table : List String) : List String :=
  (table.filter (fun k => decide (key_start.data < k.data ∧ key_end.data > k.data))).take limit


theorem scanProtocolLoop_eq (c s : Nat) (pat : String) (l : List String) :
    ∀ (sk : Nat) (acc : List String), acc.length ≤ s →
      scanProtocolLoop c s pat l sk acc =
        (acc ++ ((matchesOf pat l).drop sk).take (s - acc.length),
         if s ≤ acc.length + ((matchesOf pat l).drop sk).length then c + s else 0) := by
  induction l with
  | nil =>
    intro sk acc hle
    by_cases h : acc.length = s
    · simp [scanProtocolLoop, matchesOf, h]
    · have h0 : ¬ s ≤ acc.length := by omega
      simp [scanProtocolLoop, matchesOf, h, h0]
  | cons k rest ih =>
    intro sk acc hle
    by_cases h : acc.length = s
    · have h0 : s ≤ acc.length + ((matchesOf pat (k :: rest)).drop sk).length := by omega
      simp [scanProtocolLoop, h, h0]
    · have hlt : acc.length < s := lt_of_le_of_ne hle h
      by_cases hm : MatchPattern k pat
      · have hms : matchesOf pat (k :: rest) = k :: matchesOf pat rest := by
          simp [matchesOf, List.filter_cons, hm]
        by_cases hsk : sk = 0
        · subst hsk
          rw [scanProtocolLoop, if_neg h, if_pos hm, if_pos rfl,
            ih 0 (acc ++ [k]) (by simp; omega), hms]
          simp only [List.drop_zero, List.length_append, List.length_cons,
            List.length_nil, List.append_assoc, List.singleton_append]
          have hd : s - acc.length = (s - (acc.length + 1)) + 1 := by omega
          rw [hd, List.take_succ_cons]
          congr 1
          exact if_congr (by omega) rfl rfl
        · obtain ⟨sk', rfl⟩ : ∃ sk', sk = sk' + 1 := ⟨sk - 1, by omega⟩
          rw [scanProtocolLoop, if_neg h, if_pos hm, if_neg hsk,
            ih (sk' + 1 - 1) acc hle, hms]
          simp [List.drop_succ_cons]
      · have hms : matchesOf pat (k :: rest) = matchesOf pat rest := by
          simp [matchesOf, List.filter_cons, hm]
        rw [scanProtocolLoop, if_neg h, if_neg hm, ih sk acc hle, hms]

theorem scanProtocol_eq (c : Nat) (pat : String) (s : Nat) (t : List String) :
    scanProtocol c pat s t =
      (((matchesOf pat t).drop c).take s,
       if s ≤ (matchesOf pat t).length - c then c + s else 0) := by
  rw [scanProtocol, scanProtocolLoop_eq c s pat t c [] (by simp)]
  simp [List.length_drop]

theorem upscaledbScanLoop_eq_protocol (c s : Nat) (pat : String) (l : List String) :
    ∀ (sk : Nat) (acc : List String), acc.length ≤ s →
      upscaledbScanLoop c s pat l sk acc = scanProtocolLoop c s pat l sk acc := by
  induction l with
  | nil =>
    intro sk acc hle
    by_cases h : acc.length = s
    · simp [upscaledbScanLoop, scanProtocolLoop, h]
    · have hlt : acc.length < s := lt_of_le_of_ne hle h
      simp [upscaledbScanLoop, scanProtocolLoop, h, hlt]
  | cons k rest ih =>
    intro sk acc hle
    by_cases h : acc.length = s
    · have : ¬ acc.length < s := by omega
      simp [upscaledbScanLoop, scanProtocolLoop, h, this]
    · have hlt : acc.length < s := lt_of_le_of_ne hle h
      rw [upscaledbScanLoop, scanProtocolLoop, if_pos hlt, if_neg h]
      by_cases hm : MatchPattern k pat
      · by_cases hsk : sk = 0
        · rw [if_pos hm, if_pos hm, if_pos hsk, if_pos hsk,
            ih sk (acc ++ [k]) (by simp; omega)]
        · rw [if_pos hm, if_pos hm, if_neg hsk, if_neg hsk, ih (sk - 1) acc hle]
      · rw [if_neg hm, if_neg hm, ih sk acc hle]

theorem upscaledbScanImpl_eq_protocol (c : Nat) (pat : String) (s : Nat) (t : List String) :
    upscaledbScanImpl c pat s t = scanProtocol c pat s t :=
  upscaledbScanLoop_eq_protocol c s pat t c [] (by simp)

theorem lmdbScanLoop_spec (c s : Nat) (pat : String) (l : List String) :
    ∀ (sk : Nat) (acc : List String), acc.length ≤ s →
      (lmdbScanLoop c s pat l sk acc).1 = (scanProtocolLoop c s pat l sk acc).1 ∧
      ((lmdbScanLoop c s pat l sk acc).2 = (scanProtocolLoop c s pat l sk acc).2 ∨
       ((lmdbScanLoop c s pat l sk acc).2 = 0 ∧
        (scanProtocolLoop c s pat l sk acc).2 = c + s ∧
        acc.length + ((matchesOf pat l).drop sk).length = s)) := by
  induction l with
  | nil =>
    intro sk acc hle
    by_cases h : acc.length = s
    · refine ⟨by simp [lmdbScanLoop, scanProtocolLoop, h], Or.inr ?_⟩
      simp [lmdbScanLoop, scanProtocolLoop, matchesOf, h]
    · exact ⟨by simp [lmdbScanLoop, scanProtocolLoop, h], Or.inl (by
        simp [lmdbScanLoop, scanProtocolLoop, h])⟩
  | cons k rest ih =>
    intro sk acc hle
    by_cases h : acc.length = s
    · have hnlt : ¬ acc.length < s := by omega
      exact ⟨by simp [lmdbScanLoop, scanProtocolLoop, h, hnlt],
        Or.inl (by simp [lmdbScanLoop, scanProtocolLoop, h, hnlt])⟩
    · have hlt : acc.length < s := lt_of_le_of_ne hle h
      rw [lmdbScanLoop, scanProtocolLoop, if_pos hlt, if_neg h]
      by_cases hm : MatchPattern k pat
      · have hms : matchesOf pat (k :: rest) = k :: matchesOf pat rest := by
          simp [matchesOf, List.filter_cons, hm]
        by_cases hsk : sk = 0
        · rw [if_pos hm, if_pos hm, if_pos hsk, if_pos hsk]
          obtain ⟨h1, h2⟩ := ih sk (acc ++ [k]) (by simp; omega)
          refine ⟨h1, ?_⟩
          rcases h2 with h2 | ⟨h2a, h2b, h2c⟩
          · exact Or.inl h2
          · refine Or.inr ⟨h2a, h2b, ?_⟩
            subst hsk
            rw [hms]
            simp only [List.drop_zero, List.length_cons]
            simp only [List.length_append, List.length_cons, List.length_nil,
              List.drop_zero] at h2c
            omega
        · rw [if_pos hm, if_pos hm, if_neg hsk, if_neg hsk]
          obtain ⟨h1, h2⟩ := ih (sk - 1) acc hle
          refine ⟨h1, ?_⟩
          rcases h2 with h2 | ⟨h2a, h2b, h2c⟩
          · exact Or.inl h2
          · refine Or.inr ⟨h2a, h2b, ?_⟩
            rw [hms]
            obtain ⟨sk', rfl⟩ : ∃ sk', sk = sk' + 1 := ⟨sk - 1, by omega⟩
            simpa using h2c
      · have hms : matchesOf pat (k :: rest) = matchesOf pat rest := by
          simp [matchesOf, List.filter_cons, hm]
        rw [if_neg hm, if_neg hm, hms]
        exact ih sk acc hle

theorem lmdbScanImpl_spec (c : Nat) (pat : String) (s : Nat) (t : List String) :
    (lmdbScanImpl c pat s t).1 = (scanProtocol c pat s t).1 ∧
    ((lmdbScanImpl c pat s t).2 = (scanProtocol c pat s t).2 ∨
     ((lmdbScanImpl c pat s t).2 = 0 ∧ (scanProtocol c pat s t).2 = c + s ∧
      (matchesOf pat t).length - c = s)) := by
  obtain ⟨h1, h2⟩ := lmdbScanLoop_spec c s pat t c [] (by simp)
  refine ⟨h1, ?_⟩
  rcases h2 with h2 | ⟨h2a, h2b, h2c⟩
  · exact Or.inl h2
  · refine Or.inr ⟨h2a, h2b, ?_⟩
    simp only [List.length_nil, List.length_drop, Nat.zero_add] at h2c
    omega

theorem paginateRun_protocol (pat : String) (s : Nat) (t : List String) (hs : 0 < s) :
    ∀ (fuel c : Nat), ((matchesOf pat t).length - c) / s < fuel →
      (paginateRun (fun c0 => scanProtocol c0 pat s t) fuel c).1.flatten =
          (matchesOf pat t).drop c ∧
      (paginateRun (fun c0 => scanProtocol c0 pat s t) fuel c).1.length =
          ((matchesOf pat t).length - c) / s + 1 ∧
      (paginateRun (fun c0 => scanProtocol c0 pat s t) fuel c).2 = 0 := by
  intro fuel
  induction fuel with
  | zero => intro c h; exact absurd h (Nat.not_lt_zero _)
  | succ fuel ih =>
    intro c hfuel
    have hfst : (scanProtocol c pat s t).1 = ((matchesOf pat t).drop c).take s := by
      rw [scanProtocol_eq]
    have hsnd : (scanProtocol c pat s t).2 =
        if s ≤ (matchesOf pat t).length - c then c + s else 0 := by
      rw [scanProtocol_eq]
    by_cases hc : s ≤ (matchesOf pat t).length - c
    · have hr2 : (scanProtocol c pat s t).2 = c + s := by rw [hsnd, if_pos hc]
      have hne : ¬ ((scanProtocol c pat s t).2 = 0) := by rw [hr2]; omega
      have hdiv : ((matchesOf pat t).length - c) / s =
          ((matchesOf pat t).length - (c + s)) / s + 1 := by
        have h1 := Nat.div_eq_sub_div hs hc
        have h2 : (matchesOf pat t).length - c - s = (matchesOf pat t).length - (c + s) := by
          omega
        rw [h1, h2]
      obtain ⟨ihj, ihl, ihc⟩ := ih (c + s) (by omega)
      rw [paginateRun]
      simp only [if_neg hne]
      rw [hr2]
      simp only [List.flatten_cons, List.length_cons]
      refine ⟨?_, ?_, ihc⟩
      · rw [hfst, ihj]
        have hdd : (matchesOf pat t).drop (c + s) = ((matchesOf pat t).drop c).drop s := by
          rw [List.drop_drop, Nat.add_comm]
        rw [hdd, List.take_append_drop]
      · rw [ihl]
        omega
    · have hr2 : (scanProtocol c pat s t).2 = 0 := by rw [hsnd, if_neg hc]
      rw [paginateRun]
      simp only [if_pos hr2]
      refine ⟨?_, ?_, trivial⟩
      · simp only [List.flatten_cons, List.flatten_nil, List.append_nil]
        rw [hfst]
        exact List.take_of_length_le (by rw [List.length_drop]; omega)
      · have h0 : ((matchesOf pat t).length - c) / s = 0 := Nat.div_eq_of_lt (by omega)
        simp [h0]

theorem paginateRun_lmdb (pat : String) (s : Nat) (t : List String) (hs : 0 < s) :
    ∀ (fuel c : Nat), ((matchesOf pat t).length - c) / s < fuel →
      (paginateRun (fun c0 => lmdbScanImpl c0 pat s t) fuel c).1.flatten =
          (matchesOf pat t).drop c ∧
      ((paginateRun (fun c0 => lmdbScanImpl c0 pat s t) fuel c).1.length =
          ((matchesOf pat t).length - c) / s + 1 ∨
       (s ∣ ((matchesOf pat t).length - c) ∧ 0 < (matchesOf pat t).length - c ∧
        (paginateRun (fun c0 => lmdbScanImpl c0 pat s t) fuel c).1.length =
          ((matchesOf pat t).length - c) / s)) ∧
      (paginateRun (fun c0 => lmdbScanImpl c0 pat s t) fuel c).2 = 0 := by
  intro fuel
  induction fuel with
  | zero => intro c h; exact absurd h (Nat.not_lt_zero _)
  | succ fuel ih =>
    intro c hfuel
    obtain ⟨hkeys, hcur⟩ := lmdbScanImpl_spec c pat s t
    have hfst : (lmdbScanImpl c pat s t).1 = ((matchesOf pat t).drop c).take s := by
      rw [hkeys, scanProtocol_eq]
    have hsnd : (scanProtocol c pat s t).2 =
        if s ≤ (matchesOf pat t).length - c then c + s else 0 := by
      rw [scanProtocol_eq]
    rcases hcur with hcur | ⟨h0, _, hrem⟩
    · by_cases hc : s ≤ (matchesOf pat t).length - c
      · have hr2 : (lmdbScanImpl c pat s t).2 = c + s := by rw [hcur, hsnd, if_pos hc]
        have hne : ¬ ((lmdbScanImpl c pat s t).2 = 0) := by rw [hr2]; omega
        have hdiv : ((matchesOf pat t).length - c) / s =
            ((matchesOf pat t).length - (c + s)) / s + 1 := by
          have h1 := Nat.div_eq_sub_div hs hc
          have h2 : (matchesOf pat t).length - c - s =
              (matchesOf pat t).length - (c + s) := by omega
          rw [h1, h2]
        obtain ⟨ihj, ihl, ihc⟩ := ih (c + s) (by omega)
        rw [paginateRun]
        simp only [if_neg hne]
        rw [hr2]
        simp only [List.flatten_cons, List.length_cons]
        refine ⟨?_, ?_, ihc⟩
        · rw [hfst, ihj]
          have hdd : (matchesOf pat t).drop (c + s) = ((matchesOf pat t).drop c).drop s := by
            rw [List.drop_drop, Nat.add_comm]
          rw [hdd, List.take_append_drop]
        · rcases ihl with ihl | ⟨hd1, hd2, ihl⟩
          · left; rw [ihl]; omega
          · right
            obtain ⟨q, hq⟩ := hd1
            have hsq : s * (q + 1) = s * q + s := by ring
            refine ⟨⟨q + 1, by omega⟩, by omega, ?_⟩
            rw [ihl]
            omega
      · have hr2 : (lmdbScanImpl c pat s t).2 = 0 := by rw [hcur, hsnd, if_neg hc]
        rw [paginateRun]
        simp only [if_pos hr2]
        refine ⟨?_, ?_, trivial⟩
        · simp only [List.flatten_cons, List.flatten_nil, List.append_nil]
          rw [hfst]
          exact List.take_of_length_le (by rw [List.length_drop]; omega)
        · left
          have hv : ((matchesOf pat t).length - c) / s = 0 := Nat.div_eq_of_lt (by omega)
          simp [hv]
    · rw [paginateRun]
      simp only [if_pos h0]
      refine ⟨?_, ?_, trivial⟩
      · simp only [List.flatten_cons, List.flatten_nil, List.append_nil]
        rw [hfst]
        exact List.take_of_length_le (by rw [List.length_drop]; omega)
      · right
        refine ⟨hrem ▸ dvd_refl s, by omega, ?_⟩
        rw [hrem, Nat.div_self hs]
        simp

theorem filter_range_cons (ks ke k : String) (rest : List String) :
    (k :: rest).filter (fun k0 => decide (ks.data < k0.data ∧ ke.data > k0.data)) =
      if ks.data < k.data ∧ ke.data > k.data then k :: rest.filter (fun k0 => decide (ks.data < k0.data ∧ ke.data > k0.data))
      else rest.filter (fun k0 => decide (ks.data < k0.data ∧ ke.data > k0.data)) := by
  rw [List.filter_cons]
  by_cases hin : ks.data < k.data ∧ ke.data > k.data
  · simp only [decide_eq_true hin, if_pos hin]
    simp
  · simp only [decide_eq_false hin, if_neg hin]
    simp

theorem lmdbKeysLoop_eq (ks ke : String) (limit : Nat) (l : List String) :
    ∀ ret : List String, ret.length ≤ limit →
      lmdbKeysLoop ks ke limit l ret =
        ret ++ (l.filter (fun k => decide (ks.data < k.data ∧ ke.data > k.data))).take (limit - ret.length) := by
  induction l with
  | nil => intro ret _; simp [lmdbKeysLoop]
  | cons k rest ih =>
    intro ret hle
    by_cases hlim : limit > ret.length
    · rw [lmdbKeysLoop, if_pos hlim, filter_range_cons]
      by_cases hin : ks.data < k.data ∧ ke.data > k.data
      · rw [if_pos hin, if_pos hin, ih (ret ++ [k]) (by simp; omega)]
        have hd : limit - ret.length = (limit - (ret.length + 1)) + 1 := by omega
        rw [hd, List.take_succ_cons]
        simp [List.append_assoc]
      · rw [if_neg hin, if_neg hin, ih ret hle]
    · have hz : limit - ret.length = 0 := by omega
      rw [lmdbKeysLoop, if_neg hlim, hz]
      simp

theorem upscaledbKeysLoop_eq (ks ke : String) (limit : Nat) (l : List String) :
    ∀ ret : List String, ret.length < limit →
      upscaledbKeysLoop ks ke limit l ret =
        ret ++ (l.filter (fun k => decide (ks.data < k.data ∧ ke.data > k.data))).take (limit - ret.length) := by
  induction l with
  | nil => intro ret _; simp [upscaledbKeysLoop]
  | cons k rest ih =>
    intro ret hlt
    rw [upscaledbKeysLoop, filter_range_cons]
    by_cases hin : ks.data < k.data ∧ ke.data > k.data
    · simp only [if_pos hin]
      have hd : limit - ret.length = (limit - (ret.length + 1)) + 1 := by omega
      rw [hd, List.take_succ_cons]
      by_cases hcont : limit > (ret ++ [k]).length
      · rw [if_pos hcont, ih (ret ++ [k]) (by simpa using hcont)]
        simp [List.append_assoc]
      · rw [if_neg hcont]
        have hz : limit - (ret.length + 1) = 0 := by
          simp only [List.length_append, List.length_cons, List.length_nil] at hcont
          omega
        simp [hz]
    · simp only [if_neg hin]
      rw [if_pos (by simpa using hlt)]
      exact ih ret hlt

theorem lmdbKeysImpl_eq (ks ke : String) (limit : Nat) (t : List String) :
    lmdbKeysImpl ks ke limit t = keysInRangeProtocol ks ke limit t := by
  rw [lmdbKeysImpl, lmdbKeysLoop_eq ks ke limit t [] (by simp), keysInRangeProtocol]
  simp

theorem upscaledbKeysImpl_eq (ks ke : String) (limit : Nat) (t : List String)
    (hl : 1 ≤ limit) :
    upscaledbKeysImpl ks ke limit t = keysInRangeProtocol ks ke limit t := by
  rw [upscaledbKeysImpl, upscaledbKeysLoop_eq ks ke limit t [] (by simp; omega),
    keysInRangeProtocol]
  simp

theorem upscaledbKeysImpl_zero (ks ke : String) (t : List String) :
    upscaledbKeysImpl ks ke 0 t = (t.take 1).filter (fun k => decide (ks.data < k.data ∧ ke.data > k.data)) := by
  cases t with
  | nil => rfl
  | cons k rest =>
    simp only [upscaledbKeysImpl, upscaledbKeysLoop, List.take_succ_cons, List.take_zero,
      filter_range_cons, List.filter_nil]
    by_cases hin : ks.data < k.data ∧ ke.data > k.data
    · simp [hin]
    · simp [hin, upscaledbKeysLoop]

theorem kvFind_kvErase_self (st : KV) (k : String) : kvFind (kvErase st k) k = none := by
  induction st with
  | nil => rfl
  | cons p rest ih =>
    rw [kvErase]
    by_cases hp : p.1 = k
    · rw [if_pos hp]; exact ih
    · rw [if_neg hp, kvFind, if_neg hp]; exact ih

theorem kvFind_kvErase_ne (st : KV) (k j : String) (h : j ≠ k) :
    kvFind (kvErase st k) j = kvFind st j := by
  induction st with
  | nil => rfl
  | cons p rest ih =>
    rw [kvErase, kvFind]
    by_cases hp : p.1 = k
    · rw [if_pos hp, if_neg (by rw [hp]; exact fun hkj => h hkj.symm)]
      exact ih
    · rw [if_neg hp, kvFind]
      by_cases hj : p.1 = j
      · rw [if_pos hj, if_pos hj]
      · rw [if_neg hj, if_neg hj]; exact ih

theorem deleteLoop_find (keys : List String) :
    ∀ (st : KV) (j : String),
      kvFind (deleteLoop keys st).2 j = if j ∈ keys then none else kvFind st j := by
  induction keys with
  | nil => intro st j; simp [deleteLoop]
  | cons k rest ih =>
    intro st j
    rw [deleteLoop]
    cases hk : DelInner st k with
    | error e =>
      have hnone : kvFind st k = none := by
        rw [DelInner] at hk
        cases hfk : kvFind st k with
        | none => rfl
        | some v => rw [hfk] at hk; exact absurd hk (by simp)
      rw [ih st j]
      by_cases hj : j = k
      · subst hj
        simp only [List.mem_cons, true_or, if_pos]
        by_cases hr : j ∈ rest
        · rw [if_pos hr]
        · rw [if_neg hr, hnone]
      · simp [List.mem_cons, hj]
    | ok st' =>
      have hst' : st' = kvErase st k := by
        rw [DelInner] at hk
        cases hfk : kvFind st k with
        | none => rw [hfk] at hk; exact absurd hk (by simp)
        | some v => rw [hfk] at hk; simpa using hk.symm
      simp only [ih st' j]
      by_cases hj : j = k
      · subst hj
        simp only [List.mem_cons, true_or, if_pos]
        by_cases hr : j ∈ rest
        · rw [if_pos hr]
        · rw [if_neg hr, hst', kvFind_kvErase_self]
      · rw [hst', kvFind_kvErase_ne st k j hj]
        simp [List.mem_cons, hj]

theorem deleteLoop_mem (keys : List String) :
    ∀ (st : KV) (j : String),
      j ∈ (deleteLoop keys st).1 ↔ (j ∈ keys ∧ (kvFind st j).isSome = true) := by
  induction keys with
  | nil => intro st j; simp [deleteLoop]
  | cons k rest ih =>
    intro st j
    rw [deleteLoop]
    cases hk : DelInner st k with
    | error e =>
      have hnone : kvFind st k = none := by
        rw [DelInner] at hk
        cases hfk : kvFind st k with
        | none => rfl
        | some v => rw [hfk] at hk; exact absurd hk (by simp)
      rw [ih st j]
      by_cases hj : j = k
      · subst hj
        simp [hnone]
      · simp [List.mem_cons, hj]
    | ok st' =>
      have hsome : (kvFind st k).isSome = true := by
        rw [DelInner] at hk
        cases hfk : kvFind st k with
        | none => rw [hfk] at hk; exact absurd hk (by simp)
        | some v => simp
      have hst' : st' = kvErase st k := by
        rw [DelInner] at hk
        cases hfk : kvFind st k with
        | none => rw [hfk] at hk; exact absurd hk (by simp)
        | some v => rw [hfk] at hk; simpa using hk.symm
      simp only [List.mem_cons]
      by_cases hj : j = k
      · subst hj
        simp [hsome]
      · simp only [List.mem_cons, hj, false_or]
        rw [ih st' j, hst', kvFind_kvErase_ne st k j hj]

theorem upscaledbFlushLoop_eq (delFails : String → Bool) (l : List String) :
    ∀ kept : List String,
      upscaledbFlushLoop delFails l kept = kept ++ l.filter delFails := by
  induction l with
  | nil => intro kept; simp [upscaledbFlushLoop]
  | cons k rest ih =>
    intro kept
    rw [upscaledbFlushLoop, ih, List.filter_cons]
    by_cases hf : delFails k = true
    · simp [hf]
    · simp only [Bool.not_eq_true] at hf
      simp [hf]

theorem lmdbFlushLoop_ok (delFails : String → Bool) (l : List String)
    (h : ∀ k ∈ l, delFails k = false) :
    ∀ sz : Nat, lmdbFlushLoop delFails l sz = some (sz + l.length) := by
  induction l with
  | nil => intro sz; simp [lmdbFlushLoop]
  | cons k rest ih =>
    intro sz
    rw [lmdbFlushLoop, if_neg (by rw [h k (by simp)]; simp)]
    rw [ih (fun k hk => h k (by simp [hk])) (sz + 1)]
    simp only [List.length_cons]
    rw [Nat.add_comm rest.length 1, ← Nat.add_assoc]

theorem lmdbFlushLoop_fail (delFails : String → Bool) (l : List String)
    (h : ∃ k ∈ l, delFails k = true) :
    ∀ sz : Nat, lmdbFlushLoop delFails l sz = none := by
  induction l with
  | nil => exact absurd h (by simp)
  | cons k rest ih =>
    intro sz
    rw [lmdbFlushLoop]
    by_cases hf : delFails k = true
    · rw [if_pos hf]
    · rw [if_neg hf]
      refine ih ?_ (sz + 1)
      obtain ⟨k0, hk0, hfk0⟩ := h
      rcases List.mem_cons.mp hk0 with h0 | h0
      · subst h0; exact absurd hfk0 hf
      · exact ⟨k0, h0, hfk0⟩

theorem cfsLoop_text (validType isRemote : Int → Bool) (cs : List Char) :
    ∀ (tail : List Char) (cc : Nat) (elText : List Char) (res : Option ConnSettings),
      (∀ ch ∈ cs, ch ≠ ',') →
      cfsLoop validType isRemote (cs ++ tail) cc elText res =
        cfsLoop validType isRemote tail cc (elText ++ cs) res := by
  induction cs with
  | nil => intro tail cc elText res _; simp
  | cons c cs' ih =>
    intro tail cc elText res hc
    have hcne : c ≠ ',' := hc c (by simp)
    rw [List.cons_append, cfsLoop, if_neg hcne,
      ih tail cc (elText ++ [c]) res (fun ch hch => hc ch (by simp [hch]))]
    simp

theorem Stringmk_data (s : String) : String.mk s.data = s := rfl

/-- Claim C3, amended: the lmdb flush deletes every key inside one write
transaction, aborts (leaving the table unchanged) when any per-key delete
fails, commits only when at least one key was deleted, and aborts the
empty transaction when the table was already empty; the upscaledb flush,
by contrast, opens no transaction, always reports success, and keys whose
erase failed survive the walk (so a mid-walk failure leaves a partial
flush). -/
theorem claim_C3 (delFails : String → Bool) (table : List String) :
    ((∃ k ∈ table, delFails k = true) →
      lmdbFlushDBImpl delFails table = ⟨false, table, false⟩) ∧
    ((∀ k ∈ table, delFails k = false) → table ≠ [] →
      lmdbFlushDBImpl delFails table = ⟨true, [], true⟩) ∧
    ((∀ k ∈ table, delFails k = false) → table = [] →
      lmdbFlushDBImpl delFails table = ⟨true, [], false⟩) ∧
    upscaledbFlushDBImpl delFails table = ⟨true, table.filter delFails, false⟩ := by
  refine ⟨?_, ?_, ?_, ?_⟩
  · intro hex
    rw [lmdbFlushDBImpl, lmdbFlushLoop_fail delFails table hex 0]
  · intro hall hne
    rw [lmdbFlushDBImpl, lmdbFlushLoop_ok delFails table hall 0]
    simp only [Nat.zero_add]
    rw [if_pos (fun h => hne (List.length_eq_zero.mp h))]
  · intro _ hempty
    subst hempty
    rfl
  · rw [upscaledbFlushDBImpl, upscaledbFlushLoop_eq]
    simp

/-- Claim C3 counterexample: on the upscaledb backend, with table
`["a", "b"]` and the erase of `"a"` failing, `FlushDBImpl` still reports
success and leaves exactly `["a"]` behind — neither every key deleted nor
the table unchanged, and no transaction committed or aborted. -/
theorem claim_C3_counterexample :
    upscaledbFlushDBImpl (fun k => k == "a") ["a", "b"] = ⟨true, ["a"], false⟩ ∧
    (["a"] : List String) ≠ [] ∧ (["a"] : List String) ≠ ["a", "b"] := by decide

/-- Claim C3 witness: concrete instances of the amended claim. -/
theorem claim_C3_witness :
    lmdbFlushDBImpl (fun k => k == "a") ["a", "b"] = ⟨false, ["a", "b"], false⟩ ∧
    lmdbFlushDBImpl (fun _ => false) ["a", "b"] = ⟨true, [], true⟩ :=
  ⟨(claim_C3 (fun k => k == "a") ["a", "b"]).1 (by decide),
   (claim_C3 (fun _ => false) ["a", "b"]).2.1 (by decide) (by decide)⟩

/-- Claim C4, amended: for `k1 ≠ k2`, if `k1` is bound to `v` then
`Rename(k1, k2)` succeeds, `Get(k2)` returns `v` and `Get(k1)` fails with
not-found; if `k1` is absent, the rename fails with the not-found error
before touching the table (so `k2` is unchanged).  The restriction
`k1 ≠ k2` is forced: renaming a key to itself succeeds and leaves the key
present. -/
theorem claim_C4 (st : KV) (k1 k2 v : String) :
    (kvFind st k1 = some v → k1 ≠ k2 →
      ∃ st', RenameImpl st k1 k2 = .ok st' ∧
        kvFind st' k2 = some v ∧ kvFind st' k1 = none) ∧
    (kvFind st k1 = none → RenameImpl st k1 k2 = .error .notFound) := by
  constructor
  · intro hf hne
    refine ⟨SetInner (kvErase st k1) k2 v, ?_, ?_, ?_⟩
    · rw [RenameImpl]
      simp only [GetInner, DelInner, hf]
      rfl
    · rw [SetInner, kvFind, if_pos rfl]
    · rw [SetInner, kvFind, if_neg (fun h => hne h.symm)]
      rw [kvFind_kvErase_ne (kvErase st k1) k2 k1 (fun h => hne h)]
      exact kvFind_kvErase_self st k1
  · intro hf
    rw [RenameImpl]
    simp only [GetInner, hf]
    rfl

/-- Claim C4 counterexample: with `k1 = k2 = "a"` bound to `"v"`, the
rename succeeds and `Get("a")` still returns `"v"` — it does not fail
with not-found as the unrestricted claim demands. -/
theorem claim_C4_counterexample :
    RenameImpl [("a", "v")] "a" "a" = .ok [("a", "v")] ∧
    kvFind [("a", "v")] "a" = some "v" :=
  ⟨rfl, rfl⟩

/-- Claim C4 witness: a concrete successful rename of distinct keys. -/
theorem claim_C4_witness :
    ∃ st', RenameImpl [("a", "1"), ("b", "2")] "a" "c" = .ok st' ∧
      kvFind st' "c" = some "1" ∧ kvFind st' "a" = none :=
  (claim_C4 [("a", "1"), ("b", "2")] "a" "c" "1").1 (by decide) (by decide)

/-- Claim C5: calling `upscaledb::DBConnection::Disconnect` with no
native handle present dereferences the null handle (it writes
`handle_->cur_db = 0` unguarded) instead of succeeding as a no-op; a call
with the handle present succeeds and clears it; and the allocator-level
`upscaledb_close` is safe on an already-closed (null) handle, always
leaving the null handle. -/
theorem claim_C5 :
    upscaledbDisconnect none = .nullDeref ∧
    (∀ ctx : UpscaledbHandle, upscaledbDisconnect (some ctx) = .ok none) ∧
    (∀ h : Option UpscaledbHandle, upscaledb_close h = none) := by
  refine ⟨rfl, fun ctx => rfl, fun h => ?_⟩
  cases h <;> rfl

/-- Claim C6, amended: `KeysImpl` returns, in native order, exactly the
keys strictly between the bounds encountered before `limit` results are
collected or the iteration ends — for the lmdb backend at every limit,
and for the upscaledb backend at every limit ≥ 1; at `limit = 0` the
upscaledb `do`/`while` processes the first key unconditionally and
returns it when it is in range. -/
theorem claim_C6 (ks ke : String) (limit : Nat) (t : List String) :
    lmdbKeysImpl ks ke limit t = keysInRangeProtocol ks ke limit t ∧
    (1 ≤ limit → upscaledbKeysImpl ks ke limit t = keysInRangeProtocol ks ke limit t) ∧
    upscaledbKeysImpl ks ke 0 t = (t.take 1).filter (fun k => decide (ks.data < k.data ∧ ke.data > k.data)) :=
  ⟨lmdbKeysImpl_eq ks ke limit t, upscaledbKeysImpl_eq ks ke limit t,
   upscaledbKeysImpl_zero ks ke t⟩

/-- Claim C6 counterexample: the upscaledb `KeysImpl` at `limit = 0`
returns one key, violating "at most limit keys are returned". -/
theorem claim_C6_counterexample :
    upscaledbKeysImpl "a" "c" 0 ["b"] = ["b"] ∧
    ¬ ((upscaledbKeysImpl "a" "c" 0 ["b"]).length ≤ 0) := by decide

/-- Claim C6 witness: a concrete in-range query at a positive limit. -/
theorem claim_C6_witness :
    upscaledbKeysImpl "a" "d" 1 ["b", "c"] = keysInRangeProtocol "a" "d" 1 ["b", "c"] :=
  (claim_C6 "a" "d" 1 ["b", "c"]).2.1 (by decide)

/-- Claim C7: the multi-key delete always reports overall success even
when some keys are absent; the output list contains exactly the requested
keys that were present (whose per-key deletion succeeded); and every
deleted key is absent afterwards, so a subsequent `Get` fails with
not-found. -/
theorem claim_C7 (keys : List String) (st : KV) (j : String) :
    DeleteImpl keys st = .ok (deleteLoop keys st) ∧
    (j ∈ (deleteLoop keys st).1 ↔ (j ∈ keys ∧ (kvFind st j).isSome = true)) ∧
    (j ∈ (deleteLoop keys st).1 → kvFind (deleteLoop keys st).2 j = none) := by
  refine ⟨rfl, deleteLoop_mem keys st j, ?_⟩
  intro hj
  rw [deleteLoop_find keys st j, if_pos ((deleteLoop_mem keys st j).mp hj).1]

/-- Claim C7 witness: deleting `["a", "x"]` from a table holding only
`"a"` deletes `"a"`, and `Get("a")` then fails. -/
theorem claim_C7_witness :
    kvFind (deleteLoop ["a", "x"] [("a", "1")]).2 "a" = none :=
  (claim_C7 ["a", "x"] [("a", "1")] "a").2.2 (by decide)

/-- Claim C8: `SelectTable` is a lazy select — when the requested table is
the currently-open one, both backends return immediately with a freshly
computed key count, without calling the native open at all (the result is
independent of the open function), so a repeated select with the same
name is idempotent; and when opening a different table fails, the handle
(the previously open table and the current-table record) is unchanged. -/
theorem claim_C8 (openDbi openDbi2 : String → Option Nat) (counts : String → Nat)
    (ctx : LmdbHandle) (name : String)
    (openDb : Nat → Option Nat) (uctx : UpscaledbHandle) (num : Nat) :
    (ctx.db_name = some name →
      lmdbSelectImpl openDbi counts ctx name = (ctx, .ok ⟨name, true, counts name⟩) ∧
      lmdbSelectImpl openDbi counts ctx name = lmdbSelectImpl openDbi2 counts ctx name) ∧
    (∀ ctx2 info, lmdbSelectImpl openDbi counts ctx name = (ctx2, .ok info) →
      lmdbSelectImpl openDbi counts ctx2 name = (ctx2, .ok info)) ∧
    (∀ e, (lmdbSelectImpl openDbi counts ctx name).2 = .error e →
      (lmdbSelectImpl openDbi counts ctx name).1 = ctx) ∧
    (uctx.cur_db = num → upscaledb_select openDb uctx num = (uctx, none)) ∧
    (∀ e, (upscaledb_select openDb uctx num).2 = some e →
      (upscaledb_select openDb uctx num).1 = uctx) := by
  refine ⟨?_, ?_, ?_, ?_, ?_⟩
  · intro hlazy
    constructor
    · simp [lmdbSelectImpl, lmdb_select, hlazy]
    · simp [lmdbSelectImpl, lmdb_select, hlazy]
  · intro ctx2 info heq
    by_cases hlazy : ctx.db_name = some name
    · have h1 : lmdbSelectImpl openDbi counts ctx name =
          (ctx, .ok ⟨name, true, counts name⟩) := by
        simp [lmdbSelectImpl, lmdb_select, hlazy]
      rw [h1] at heq
      rw [Prod.mk.injEq] at heq
      obtain ⟨h2, h3⟩ := heq
      subst h2
      rw [h1, h3]
    · cases hopen : openDbi name with
      | none =>
        have h1 : lmdbSelectImpl openDbi counts ctx name = (ctx, .error .backendFail) := by
          simp [lmdbSelectImpl, lmdb_select, hlazy, hopen]
        rw [h1] at heq
        exact absurd (congrArg Prod.snd heq) (by simp)
      | some ldbi =>
        have h1 : lmdbSelectImpl openDbi counts ctx name =
            (⟨some name, ldbi⟩, .ok ⟨name, true, counts name⟩) := by
          simp [lmdbSelectImpl, lmdb_select, hlazy, hopen]
        rw [h1] at heq
        rw [Prod.mk.injEq] at heq
        obtain ⟨h2, h3⟩ := heq
        subst h2
        rw [← h3]
        simp [lmdbSelectImpl, lmdb_select]
  · intro e herr
    by_cases hlazy : ctx.db_name = some name
    · simp [lmdbSelectImpl, lmdb_select, hlazy] at herr
    · cases hopen : openDbi name with
      | none => simp [lmdbSelectImpl, lmdb_select, hlazy, hopen]
      | some ldbi => simp [lmdbSelectImpl, lmdb_select, hlazy, hopen] at herr
  · intro hlz
    simp [upscaledb_select, hlz]
  · intro e herr
    by_cases hlz : uctx.cur_db = num
    · simp [upscaledb_select, hlz] at herr
    · cases hopen : openDb num with
      | none => simp [upscaledb_select, hlz, hopen]
      | some db => simp [upscaledb_select, hlz, hopen] at herr

/-- Claim C8 witness: a lazy re-select of the open table `"t"` ignores the
native open function and returns the fresh key count. -/
theorem claim_C8_witness :
    lmdbSelectImpl (fun _ => none) (fun _ => 3) ⟨some "t", 1⟩ "t" =
      (⟨some "t", 1⟩, .ok ⟨"t", true, 3⟩) ∧
    lmdbSelectImpl (fun _ => none) (fun _ => 3) ⟨some "t", 1⟩ "t" =
      lmdbSelectImpl (fun _ => some 9) (fun _ => 3) ⟨some "t", 1⟩ "t" :=
  (claim_C8 (fun _ => none) (fun _ => some 9) (fun _ => 3) ⟨some "t", 1⟩ "t"
    (fun _ => none) ⟨2, 0⟩ 2).1 rfl

/-- Claim C10: for the upscaledb backend, `SelectImpl` fails with the
invalid-argument error and leaves the handle unchanged whenever the table
name does not parse as a decimal 16-bit number (`conv name = none`), and
a table can be selected successfully only when the name does parse. -/
theorem claim_C10 (conv : String → Option Nat) (openDb : Nat → Option Nat)
    (counts : Nat → Nat) (ctx : UpscaledbHandle) (name : String) :
    (conv name = none →
      upscaledbSelectImpl conv openDb counts ctx name = (ctx, .error .invalidArgument)) ∧
    (∀ ctx2 info, upscaledbSelectImpl conv openDb counts ctx name = (ctx2, .ok info) →
      ∃ num, conv name = some num) := by
  constructor
  · intro h
    simp [upscaledbSelectImpl, h]
  · intro ctx2 info heq
    cases hc : conv name with
    | none =>
      rw [upscaledbSelectImpl] at heq
      rw [hc] at heq
      exact absurd (congrArg Prod.snd heq) (by simp)
    | some num => exact ⟨num, rfl⟩

/-- Claim C10 witness: a non-numeric name is rejected with the
invalid-argument error and the handle is untouched. -/
theorem claim_C10_witness :
    upscaledbSelectImpl (fun _ => none) (fun _ => some 1) (fun _ => 0) ⟨0, 0⟩ "abc" =
      (⟨0, 0⟩, .error .invalidArgument) :=
  (claim_C10 (fun _ => none) (fun _ => some 1) (fun _ => 0) ⟨0, 0⟩ "abc").1 rfl

/-- Claim C1, amended: a single `Scan` call returns exactly the keys of
the reference skip-count protocol on both backends, and the upscaledb
backend also returns exactly the protocol's `cursorOut`; the lmdb
backend returns the protocol's `cursorOut` except that it may return `0`
instead of `cursorIn + pageSize`, namely when its cursor move fails
immediately after the page was filled — possible only when the table
holds exactly `cursorIn + pageSize` matches beyond which nothing
remains. -/
theorem claim_C1 (c : Nat) (pat : String) (s : Nat) (t : List String) :
    upscaledbScanImpl c pat s t = scanProtocol c pat s t ∧
    (lmdbScanImpl c pat s t).1 = (scanProtocol c pat s t).1 ∧
    ((lmdbScanImpl c pat s t).2 = (scanProtocol c pat s t).2 ∨
     ((lmdbScanImpl c pat s t).2 = 0 ∧ (scanProtocol c pat s t).2 = c + s ∧
      (matchesOf pat t).length - c = s)) :=
  ⟨upscaledbScanImpl_eq_protocol c pat s t, (lmdbScanImpl_spec c pat s t).1,
   (lmdbScanImpl_spec c pat s t).2⟩

/-- Claim C1 counterexample: on a one-key table whose only key matches,
`Scan(0, "a", 1)` on lmdb returns `cursorOut = 0` while the reference
skip-count protocol (and the upscaledb backend) return
`cursorOut = cursorIn + pageSize = 1`. -/
theorem claim_C1_counterexample :
    lmdbScanImpl 0 "a" 1 ["a"] = (["a"], 0) ∧
    scanProtocol 0 "a" 1 ["a"] = (["a"], 1) ∧
    lmdbScanImpl 0 "a" 1 ["a"] ≠ scanProtocol 0 "a" 1 ["a"] := by decide

/-- Claim C2, amended: chaining `Scan` from cursor 0 with page size
`s > 0` and no mutation enumerates exactly the `M` matching keys, in
native order, with no duplicates and no omissions, and the run ends with
a call returning `cursorOut = 0`; the number of pages is `⌊M/s⌋ + 1`
(which equals `⌈M/s⌉` exactly when `s` does not divide `M`; when `s`
divides `M` the final page is an extra empty one) — except that the lmdb
backend may save that extra page and use exactly `M/s` pages when `s`
divides `M > 0`. -/
theorem claim_C2 (pat : String) (s : Nat) (t : List String) (hs : 0 < s) :
    (paginateRun (fun c => upscaledbScanImpl c pat s t) (t.length + 1) 0).1.flatten =
        matchesOf pat t ∧
    (paginateRun (fun c => upscaledbScanImpl c pat s t) (t.length + 1) 0).1.length =
        (matchesOf pat t).length / s + 1 ∧
    (paginateRun (fun c => upscaledbScanImpl c pat s t) (t.length + 1) 0).2 = 0 ∧
    (paginateRun (fun c => lmdbScanImpl c pat s t) (t.length + 1) 0).1.flatten =
        matchesOf pat t ∧
    ((paginateRun (fun c => lmdbScanImpl c pat s t) (t.length + 1) 0).1.length =
        (matchesOf pat t).length / s + 1 ∨
     (s ∣ (matchesOf pat t).length ∧ 0 < (matchesOf pat t).length ∧
      (paginateRun (fun c => lmdbScanImpl c pat s t) (t.length + 1) 0).1.length =
        (matchesOf pat t).length / s)) ∧
    (paginateRun (fun c => lmdbScanImpl c pat s t) (t.length + 1) 0).2 = 0 := by
  have hfuel : ((matchesOf pat t).length - 0) / s < t.length + 1 := by
    have h1 : (matchesOf pat t).length ≤ t.length := List.length_filter_le _ t
    have h2 : (matchesOf pat t).length / s ≤ (matchesOf pat t).length :=
      Nat.div_le_self _ s
    simp only [Nat.sub_zero]
    omega
  have hups : (fun c => upscaledbScanImpl c pat s t) = (fun c => scanProtocol c pat s t) :=
    funext fun c => upscaledbScanImpl_eq_protocol c pat s t
  obtain ⟨p1, p2, p3⟩ := paginateRun_protocol pat s t hs (t.length + 1) 0 hfuel
  obtain ⟨l1, l2, l3⟩ := paginateRun_lmdb pat s t hs (t.length + 1) 0 hfuel
  rw [hups]
  simp only [Nat.sub_zero, List.drop_zero] at p1 p2 p3 l1 l2 l3
  exact ⟨p1, p2, p3, l1, l2, l3⟩

/-- Claim C2 counterexample: one matching key, page size 1, so
`⌈M/s⌉ = 1`; the upscaledb pagination nevertheless needs two pages — the
first call returns `cursorOut = 1`, not 0, and a second (empty) call is
required to end the run. -/
theorem claim_C2_counterexample :
    upscaledbScanImpl 0 "a" 1 ["a"] = (["a"], 1) ∧
    upscaledbScanImpl 1 "a" 1 ["a"] = ([], 0) ∧
    (paginateRun (fun c => upscaledbScanImpl c "a" 1 ["a"]) 2 0).1 = [["a"], []] ∧
    (2 : Nat) ≠ (1 + 1 - 1) / 1 := by decide

/-- Claim C2 witness: three keys all matching `"*"`, page size 2 — two
pages `["a", "b"]` and `["c"]`, covering every match exactly once. -/
theorem claim_C2_witness :
    0 < 2 ∧
    ((paginateRun (fun c => upscaledbScanImpl c "*" 2 ["a", "b", "c"])
          (["a", "b", "c"].length + 1) 0).1.flatten = matchesOf "*" ["a", "b", "c"] ∧
     (paginateRun (fun c => upscaledbScanImpl c "*" 2 ["a", "b", "c"])
          (["a", "b", "c"].length + 1) 0).1.length =
        (matchesOf "*" ["a", "b", "c"]).length / 2 + 1 ∧
     (paginateRun (fun c => upscaledbScanImpl c "*" 2 ["a", "b", "c"])
          (["a", "b", "c"].length + 1) 0).2 = 0 ∧
     (paginateRun (fun c => lmdbScanImpl c "*" 2 ["a", "b", "c"])
          (["a", "b", "c"].length + 1) 0).1.flatten = matchesOf "*" ["a", "b", "c"] ∧
     ((paginateRun (fun c => lmdbScanImpl c "*" 2 ["a", "b", "c"])
          (["a", "b", "c"].length + 1) 0).1.length =
        (matchesOf "*" ["a", "b", "c"]).length / 2 + 1 ∨
      (2 ∣ (matchesOf "*" ["a", "b", "c"]).length ∧
       0 < (matchesOf "*" ["a", "b", "c"]).length ∧
       (paginateRun (fun c => lmdbScanImpl c "*" 2 ["a", "b", "c"])
          (["a", "b", "c"].length + 1) 0).1.length =
        (matchesOf "*" ["a", "b", "c"]).length / 2)) ∧
     (paginateRun (fun c => lmdbScanImpl c "*" 2 ["a", "b", "c"])
          (["a", "b", "c"].length + 1) 0).2 = 0) :=
  ⟨by decide, claim_C2 "*" 2 ["a", "b", "c"] (by decide)⟩

/-- Claim C9: for a settings string of a non-remote backend with a digit
type, the parser takes the text before the first comma as the type, the
comma-free text between the first and second comma as the connection
path, the comma-free text between the second and third comma as the
logging-interval text, and the entire remainder after the third comma —
embedded commas included — verbatim as the backend command line. -/
theorem claim_C9 (validType isRemote : Int → Bool) (d : Char) (p m restS : String)
    (hd : d.isDigit = true)
    (hvt : validType ((d.toNat : Int) - 48) = true)
    (hrm : isRemote ((d.toNat : Int) - 48) = false)
    (hp : ∀ ch ∈ p.data, ch ≠ ',')
    (hm : ∀ ch ∈ m.data, ch ≠ ',') :
    CreateFromString validType isRemote
        (String.mk (d :: ',' :: (p.data ++ ',' :: (m.data ++ ',' :: restS.data)))) =
      some ⟨(d.toNat : Int) - 48, p, m, restS, ""⟩ := by
  have hdc : d ≠ ',' := by
    intro h
    rw [h] at hd
    exact absurd hd (by decide)
  rw [CreateFromString, if_neg (fun h => by simpa using congrArg String.data h)]
  show cfsLoop validType isRemote
      (d :: ',' :: (p.data ++ ',' :: (m.data ++ ',' :: restS.data))) 0 [] none = _
  rw [cfsLoop, if_neg hdc]
  rw [cfsLoop, if_pos rfl, if_pos rfl]
  simp only [List.nil_append, List.headD]
  rw [if_pos hvt]
  rw [cfsLoop_text validType isRemote p.data _ 1 _ _ hp]
  rw [cfsLoop, if_pos rfl, if_neg (by decide), if_pos rfl]
  simp only [List.nil_append, Option.map_some', Stringmk_data]
  rw [cfsLoop_text validType isRemote m.data _ 2 _ _ hm]
  rw [cfsLoop, if_pos rfl, if_neg (by decide), if_neg (by decide), if_pos rfl]
  simp only [List.nil_append, Option.some_bind, Stringmk_data]
  rw [if_neg (by simp [hrm])]

/-- Claim C9 witness: the string `1,db,200,-f 1,2` for a valid non-remote
type `1` parses with command line `-f 1,2`, embedded comma preserved. -/
theorem claim_C9_witness :
    CreateFromString (fun ty => ty == 1) (fun _ => false)
        (String.mk ('1' :: ',' :: "db".data ++ ',' :: "200".data ++ ',' :: "-f 1,2".data)) =
      some ⟨(('1').toNat : Int) - 48, "db", "200", "-f 1,2", ""⟩ :=
  claim_C9 (fun ty => ty == 1) (fun _ => false) '1' "db" "200" "-f 1,2"
    (by decide) (by decide) (by decide) (by decide) (by decide)
